import Mathlib

/-!
# Verification of the DMX-aware graph transformer

A shallow embedding of `mltools/fx/transformer/dmx_aware_transformer.py`
(`DMXAwareTransformer`) and of `dmx_transform` from `mltools/dmx/hf.py`,
with theorems checking the natural-language specification against the code.

The transformer walks a traced `torch.fx` graph node by node; every handler
(`call_module`, `call_method`, `call_function`, and the pass-through handlers
inherited from `fx.Transformer`) emits exactly one node into the new graph.
Names for synthesized submodules are derived from the scope table
(`node_name_to_scope`) and made collision-free through the graph namespace.

Helpers that live in `mltools/fx/transformer/utils.py` (not part of the
sources at hand: `get_name_for_func_nodes`, `process_args`, `process_kwargs`,
the replacement registries) and the `torch.fx` namespace machinery are
modelled from the spec, as documented on each definition.
-/

namespace DmxTransform

/-- Python's `s.replace(a, b)` for single-character patterns: replace every
occurrence of the character `a` by `b`. -/
def replaceChar (a b : Char) (s : String) : String :=
  (s.toList.map (fun c => if c = a then b else c)).asString

/-- Modelled from the spec: the graph namespace sanitizes a candidate name
before allocation, replacing the scope separator `.` (illegal in a graph node
name) by `_`.  (`torch.fx` replaces every illegal character; the identifiers
of this development only ever contain alphanumerics, `.` and `_`.) -/
def sanitize (s : String) : String := replaceChar '.' '_' s

/-- Python's `s.rfind(c)` restricted to the character `.`: index of the last
occurrence, `none` when absent (Python returns `-1`). -/
def rfindDot : List Char → Option Nat
  | [] => none
  | a :: t =>
    match rfindDot t with
    | some i => some (i + 1)
    | none => if a = '.' then some 0 else none

/-- Case split of the relocation surgery on the character list of
`new_name = curr_name.replace("_", ".")`: if the string ends in a digit, put
an `_` back at the position of the last `.` (Python slices
`new_name[:rfind] + "_" + new_name[rfind+1:]`; with `rfind = -1` this is
`new_name[:-1] + "_" + new_name`). -/
def relocGo (l : List Char) : String :=
  match l.getLast? with
  | none => ""
  | some c =>
    if c.isDigit then
      match rfindDot l with
      | some i => (l.take i ++ '_' :: l.drop (i + 1)).asString
      | none => (l.dropLast ++ '_' :: l).asString
    else l.asString

/-- The string surgery of `create_unique_name_in_scope`
(dmx_aware_transformer.py lines 93-99): replace every `_` by `.`, then
relocate the trailing disambiguator via `relocGo`. -/
def relocateName (curr : String) : String :=
  relocGo ((replaceChar '_' '.' curr).toList)

/-- Character-list prefix test (mirrors Python string containment helpers). -/
def isPrefixB : List Char → List Char → Bool
  | [], _ => true
  | _ :: _, [] => false
  | a :: as, b :: bs => a == b && isPrefixB as bs

/-- Python's substring containment `needle in hay` on strings:
`needle` occurs contiguously inside `hay`. -/
def containsSub (needle hay : String) : Bool :=
  go needle.toList hay.toList
where
  go (nl : List Char) : List Char → Bool
    | [] => isPrefixB nl []
    | c :: rest => isPrefixB nl (c :: rest) || go nl rest

/-- State of the new graph's namespace: the names already issued and the
per-base numeric-suffix counters.  Modelled from the spec (§3 "Used-Names Set
+ Base-Count Table"), backing both `torch.fx.Graph._graph_namespace` and
`get_name_for_func_nodes`. -/
structure NamespaceState where
  used : List String
  baseCount : List (String × Nat)
deriving DecidableEq, Repr

/-- `base ++ "_" ++ n`: the numeric-suffix disambiguation format. -/
def mkSuffixed (base : String) (n : Nat) : String :=
  base ++ "_" ++ Nat.repr n

/-- Modelled from the spec (§4.2): scan `base_n`, `base_(n+1)`, ... for the
first suffix not yet used.  The fuel is the number of used names, which
bounds the number of possible collisions; each collision consumes the
colliding entry. -/
def findAvail (base : String) : Nat → Nat → List String → Nat
  | 0, n, _ => n
  | fuel + 1, n, used =>
    if mkSuffixed base n ∈ used then
      findAvail base fuel (n + 1) (used.erase (mkSuffixed base n))
    else n

/-- Modelled from the spec (§4.2 Name Allocator): resolve a candidate to a
collision-free name.  The sanitized candidate itself when unused; otherwise
the smallest unused numeric suffix starting one past the base counter.
Returns the chosen suffix alongside, for the base-count update. -/
def resolveName (cand : String) (ns : NamespaceState) : String × Option Nat :=
  let base := sanitize cand
  if base ∈ ns.used then
    let num := findAvail base ns.used.length
      (((List.lookup base ns.baseCount).getD 0) + 1) ns.used
    (mkSuffixed base num, some num)
  else (base, none)

/-- Modelled from the spec: `get_name_for_func_nodes` from
`mltools/fx/transformer/utils.py` (absent from src) — compute the name that
`create_name` would produce for `cand`, without reserving it. -/
def getNameForFuncNodes (cand : String) (ns : NamespaceState) : String :=
  (resolveName cand ns).1

/-- Modelled from the spec: `Namespace.create_name` — resolve a candidate and
reserve the result (record it used; update the base counter when a numeric
suffix was taken). -/
def createName (cand : String) (ns : NamespaceState) : String × NamespaceState :=
  match resolveName cand ns with
  | (nm, some num) => (nm, ⟨nm :: ns.used, (sanitize cand, num) :: ns.baseCount⟩)
  | (nm, none) => (nm, ⟨nm :: ns.used, ns.baseCount⟩)

/-- `create_unique_name_in_scope` (dmx_aware_transformer.py lines 87-100):
collision-resolve the dotted candidate against the new graph's namespace,
then undo the sanitization, relocating the disambiguating `_` when the name
ends in a digit. -/
def createUniqueNameInScope (ns : NamespaceState) (candName : String) : String :=
  relocateName (getNameForFuncNodes candName ns)

/-! ## The graph model -/

/-- The operation kind of a traced `torch.fx` node. -/
inductive Op
  | placeholder
  | callModule
  | callFunction
  | callMethod
  | getAttr
  | output
deriving DecidableEq, Repr

/-- An argument of a call-site node: either a `Proxy` wrapping the node at a
given index of the graph, or a host-side literal constant folded at trace
time. -/
inductive Arg
  | ref (idx : Nat)
  | lit (v : Int)
deriving DecidableEq, Repr

/-- An input-graph node.  `target` is the module path (for `call_module`),
the method name (for `call_method`), or `str(target)` — the registry key —
for `call_function`; `fname` is `Graph._target_to_str(target)`, the short
name used as the node-name candidate of a function call (empty for other
kinds). -/
structure Node where
  op : Op
  target : String
  fname : String
  args : List Arg
  kwargs : List (String × Arg)
deriving DecidableEq, Repr

/-- A node of the new graph produced by the transformer, together with the
name the graph namespace assigned to it. -/
structure ONode where
  name : String
  op : Op
  target : String
  args : List Arg
  kwargs : List (String × Arg)
deriving DecidableEq, Repr

/-- One `add_submodule` registration performed during the pass: the qualified
name, the registry key of the replacement, and whether the name was produced
by `create_unique_name_in_scope` (the scoped elementwise/matmul paths). -/
structure Sub where
  name : String
  key : String
  viaScope : Bool
deriving DecidableEq, Repr

/-- The replacement registries (`dmx_aware_mapping` keyed by module type, and
`dmx_aware_functional_mappings` keyed by `str(target)`), supplied externally
as pure data.  Modelled from the spec: the tables live in
`mltools/fx/transformer/utils.py`, absent from src; `funcInitParams` records,
per function key, the keyword-parameter names accepted by the replacement
module's constructor (`inspect.signature(empty_mod.__init__)`). -/
structure Registries where
  moduleTypes : List String
  funcKeys : List String
  funcInitParams : List (String × List String)
deriving DecidableEq, Repr

/-- Read-only inputs of one transformation pass: the node-to-scope table
(`node_name_to_scope`, mapping a node name to its owning scope path and
original type), the module-type table of the owning module tree
(`type(module.get_submodule(target))` rendered as a key), and the
registries. -/
structure Ctx where
  nnts : List (String × String × String)
  modTypes : List (String × String)
  reg : Registries
deriving DecidableEq, Repr

/-- Mutable state threaded through the pass: the new graph's namespace, the
new nodes emitted so far (the image of input node `i` sits at index `i`),
and the submodule registrations performed so far. -/
structure St where
  ns : NamespaceState
  out : List ONode
  subs : List Sub
deriving DecidableEq, Repr

/-- `str(torch.matmul)` (a `repr` of a built-in method; the memory address it
prints is irrelevant to the comparisons and elided here). -/
def torchMatmulRepr : String := "<built-in method matmul of type object>"

/-- `str(torch.bmm)` (address elided as in `torchMatmulRepr`). -/
def torchBmmRepr : String := "<built-in method bmm of type object>"

/-- The classification performed by the `elif` chain of `call_function`
(dmx_aware_transformer.py lines 131-165) on a registered key: equality with
`"<built-in function add>"`, then Python *substring* containment
`node_key in "<built-in function mul>"`, then membership in the list of
matmul variants, else the generic replacement path. -/
inductive FuncClass
  | addLike
  | mulLike
  | matmulLike
  | generic
deriving DecidableEq, Repr

def classifyFunc (key : String) : FuncClass :=
  if key = "<built-in function add>" then .addLike
  else if containsSub key "<built-in function mul>" then .mulLike
  else if key = torchMatmulRepr ∨ key = torchBmmRepr
       ∨ key = "<built-in function matmul>" then .matmulLike
  else .generic

/-- The node-kind list of the operand-provenance guard
(dmx_aware_transformer.py lines 135-138 and 148-151). -/
def opIsGraphVal (o : Op) : Bool :=
  o == .callModule || o == .callFunction || o == .callMethod || o == .placeholder

/-- The operand-provenance guard on one argument: `isinstance(arg, Proxy)`
and the wrapped (new-graph) node's kind lies in the guarded list.  Literals
are not proxies and fail the guard. -/
def graphProducedB (st : St) (a : Arg) : Bool :=
  match a with
  | .ref i =>
    match st.out[i]? with
    | some m => opIsGraphVal m.op
    | none => false
  | .lit _ => false

/-- Modelled from the spec: `process_args` from
`mltools/fx/transformer/utils.py` (absent from src) unwraps each `Proxy`
argument to the underlying new-graph node; in this embedding an argument
already denotes its new-graph node reference, so the rewrite is the
identity on the argument list. -/
def processArgs (args : List Arg) : List Arg := args

/-- Modelled from the spec: `process_kwargs`, the keyword analogue of
`process_args`. -/
def processKwargs (kwargs : List (String × Arg)) : List (String × Arg) := kwargs

/-- Emit a pass-through node: reserve a name for the candidate and append a
node of the same kind with the argument references (already remapped to
new-graph images) unchanged.  This is `super().call_*` / the default
`fx.Transformer` behaviour. -/
def emitPass (st : St) (cand : String) (o : Op) (target : String)
    (args : List Arg) (kwargs : List (String × Arg)) : St :=
  let p := createName cand st.ns
  { ns := p.2, out := st.out ++ [⟨p.1, o, target, args, kwargs⟩], subs := st.subs }

/-- Tail of the `baddbmm` method replacement (dmx_aware_transformer.py lines
70-83): reserve the plain candidate when the new name differs from it,
register a `BAddBMM` submodule, and emit the `call_module` node with all
positional and keyword arguments forwarded. -/
def finishMethodReplace (st : St) (candidate newName : String)
    (args : List Arg) (kwargs : List (String × Arg)) : St :=
  let ns1 := if newName ≠ candidate then (createName candidate st.ns).2 else st.ns
  let q := createName newName ns1
  { ns := q.2,
    out := st.out ++ [⟨q.1, .callModule, newName, processArgs args, processKwargs kwargs⟩],
    subs := st.subs ++ [⟨newName, "dmx.nn.BAddBMM", false⟩] }

/-- Tail of every function-call replacement (dmx_aware_transformer.py lines
166-189): reserve the plain candidate when the new name differs from it,
split the keyword arguments into constructor-consumed and forwarded ones,
register the replacement submodule, and emit the `call_module` node. -/
def finishFuncReplace (ctx : Ctx) (st : St) (key candidate newName : String)
    (viaScope : Bool) (args : List Arg) (kwargs : List (String × Arg)) : St :=
  let ns1 := if newName ≠ candidate then (createName candidate st.ns).2 else st.ns
  let acc := (List.lookup key ctx.reg.funcInitParams).getD []
  let newkwargs := kwargs.filter (fun p => !(acc.contains p.1))
  let q := createName newName ns1
  { ns := q.2,
    out := st.out ++ [⟨q.1, .callModule, newName, processArgs args, processKwargs newkwargs⟩],
    subs := st.subs ++ [⟨newName, key, viaScope⟩] }

/-- Transform one node.  Mirrors, case by case, the handlers of
`DMXAwareTransformer` (`call_module` lines 29-57, `call_method` lines 59-85,
`call_function` lines 102-189) and the default pass-through handlers of
`fx.Transformer` for `placeholder`, `get_attr` and `output` nodes.  Python
exceptions (`KeyError` on the scope table, attribute/index errors on
non-proxy arguments) become `.error`. -/
def stepNode (ctx : Ctx) (st : St) (n : Node) : Except String St :=
  match n.op with
  | .placeholder => .ok (emitPass st n.target .placeholder n.target n.args n.kwargs)
  | .getAttr => .ok (emitPass st n.target .getAttr n.target n.args n.kwargs)
  | .output => .ok (emitPass st "output" .output n.target n.args n.kwargs)
  | .callModule =>
    match List.lookup n.target ctx.modTypes with
    | none => .error ("AttributeError: no submodule " ++ n.target)
    | some nodeKey =>
      if nodeKey ∈ ctx.reg.moduleTypes then
        match n.args with
        | .ref i :: _ =>
          let p := createName n.target st.ns
          .ok { ns := p.2,
                out := st.out ++ [⟨p.1, .callModule, n.target, [Arg.ref i], []⟩],
                subs := st.subs ++ [⟨n.target, nodeKey, false⟩] }
        | _ => .error "AttributeError: first argument is not a Proxy"
      else .ok (emitPass st n.target .callModule n.target n.args n.kwargs)
  | .callMethod =>
    if n.target = "baddbmm" then
      let candidate := n.target
      let currName := getNameForFuncNodes candidate st.ns
      match List.lookup currName ctx.nnts with
      | none => .error ("KeyError: " ++ currName)
      | some sc =>
        let newName := if sc.1 ≠ "" then sc.1 ++ "." ++ candidate else candidate
        .ok (finishMethodReplace st candidate newName n.args n.kwargs)
    else .ok (emitPass st n.target .callMethod n.target n.args n.kwargs)
  | .callFunction =>
    if n.target ∈ ctx.reg.funcKeys then
      let candidate := n.fname
      let currName := getNameForFuncNodes candidate st.ns
      match List.lookup currName ctx.nnts with
      | none => .error ("KeyError: " ++ currName)
      | some sc =>
        match classifyFunc n.target with
        | .addLike =>
          match n.args with
          | a0 :: a1 :: _ =>
            if graphProducedB st a0 && graphProducedB st a1 then
              .ok (finishFuncReplace ctx st n.target candidate
                (createUniqueNameInScope st.ns (sc.1 ++ ".resadd")) true n.args n.kwargs)
            else .ok (emitPass st candidate .callFunction n.target n.args n.kwargs)
          | _ => .error "IndexError: tuple index out of range"
        | .mulLike =>
          match n.args with
          | a0 :: a1 :: _ =>
            if graphProducedB st a0 && graphProducedB st a1 then
              .ok (finishFuncReplace ctx st n.target candidate
                (createUniqueNameInScope st.ns (sc.1 ++ ".mul")) true n.args n.kwargs)
            else .ok (emitPass st candidate .callFunction n.target n.args n.kwargs)
          | _ => .error "IndexError: tuple index out of range"
        | .matmulLike =>
          .ok (finishFuncReplace ctx st n.target candidate
            (createUniqueNameInScope st.ns (sc.1 ++ ".matmul")) true n.args n.kwargs)
        | .generic =>
          let newName := if sc.1 ≠ "" then sc.1 ++ "." ++ candidate else candidate
          .ok (finishFuncReplace ctx st n.target candidate newName false n.args n.kwargs)
    else .ok (emitPass st n.fname .callFunction n.target n.args n.kwargs)

/-- Run the pass over a node list from a given state. -/
def runFrom (ctx : Ctx) (st : St) : List Node → Except String St
  | [] => .ok st
  | n :: rest =>
    match stepNode ctx st n with
    | .ok st' => runFrom ctx st' rest
    | .error e => .error e

/-- The fresh allocator/namespace state a transformation starts from. -/
def initialState : St := ⟨⟨[], []⟩, [], []⟩

/-- One whole transformation pass from a fresh state. -/
def runTransform (ctx : Ctx) (g : List Node) : Except String St :=
  runFrom ctx initialState g

/-- The qualified submodule names registered by a run (observation used by
counterexamples; on an aborted run, the error message). -/
def subNames (r : Except String St) : List String :=
  match r with
  | .ok st => st.subs.map (fun s => s.name)
  | .error e => [e]

/-- The emitted nodes' positional-argument lists (observation used by
counterexamples; empty on an aborted run). -/
def outArgs (r : Except String St) : List (List Arg) :=
  match r with
  | .ok st => st.out.map (fun m => m.args)
  | .error _ => []

/-- The qualified names allocated through `create_unique_name_in_scope`
during the pass (the scoped elementwise/matmul replacement paths). -/
def scopedNames (st : St) : List String :=
  (st.subs.filter (fun s => s.viaScope)).map (fun s => s.name)

/-- Invariant carried through the pass for the uniqueness theorem: the
scoped names issued so far are pairwise distinct, and each one's sanitized
form is recorded in the namespace's used set. -/
def goodState (st : St) : Prop :=
  (scopedNames st).Nodup ∧ ∀ nm ∈ scopedNames st, sanitize nm ∈ st.ns.used

/-! ## The `dmx_transform` entry point (hf.py) -/

/-- Outcome of a successful `dmx_transform` (hf.py lines 29-42): the model
is transformed either with the configuration loaded from the located file,
or with the pipeline's baseline configuration plus the built-in rule set
named by the requested configuration. -/
inductive DmxOutcome
  | fromFile (configFile : String)
  | baselineWith (ruleName : String)
deriving DecidableEq, Repr

/-- `dmx_transform` (hf.py lines 29-42).  `configFile` is the result of
`get_config_file` (hf.py lines 21-26), which returns the downloaded path,
or `None` when the file cannot be located (every lookup exception is
swallowed).  The `RuntimeError` raised on an unrecognized name becomes
`.error`. -/
def dmx_transform (configFile : Option String) (dmxConfigName : String) :
    Except String DmxOutcome :=
  match configFile with
  | some f => .ok (.fromFile f)
  | none =>
    if dmxConfigName = "BASELINE" ∨ dmxConfigName = "BASIC" then
      .ok (.baselineWith dmxConfigName)
    else .error ("illegal dmx_config: " ++ dmxConfigName)

/-! ## Concrete inputs used by counterexamples and witnesses -/

/-- One `torch.matmul` call attributed to scope `block.self_attn` (a scope
path containing an underscore, as produced by a module attribute such as
`self_attn`). -/
def ctxMatmulU : Ctx :=
  { nnts := [("matmul", ("block.self_attn", "function"))],
    modTypes := [],
    reg := { moduleTypes := [],
             funcKeys := ["<built-in function matmul>"],
             funcInitParams := [] } }

def gMatmulU : List Node :=
  [⟨.callFunction, "<built-in function matmul>", "matmul", [.lit 3, .lit 4], []⟩]

/-- Two calls to the same registered generic function (`gelu`) in the same
scope `block`. -/
def ctxGelu : Ctx :=
  { nnts := [("gelu", ("block", "function")), ("gelu_1", ("block", "function"))],
    modTypes := [],
    reg := { moduleTypes := [],
             funcKeys := ["<built-in function gelu>"],
             funcInitParams := [] } }

def gGelu : List Node :=
  [⟨.callFunction, "<built-in function gelu>", "gelu", [], []⟩,
   ⟨.callFunction, "<built-in function gelu>", "gelu", [], []⟩]

/-- A registered module invoked with two positional arguments and a keyword
argument. -/
def ctxLin : Ctx :=
  { nnts := [],
    modTypes := [("block.lin", "torch.nn.modules.linear.Linear")],
    reg := { moduleTypes := ["torch.nn.modules.linear.Linear"],
             funcKeys := [],
             funcInitParams := [] } }

def gLin : List Node :=
  [⟨.placeholder, "x", "", [], []⟩,
   ⟨.placeholder, "y", "", [], []⟩,
   ⟨.callModule, "block.lin", "", [.ref 0, .ref 1], [("flag", .lit 1)]⟩]

/-- Registry holding both elementwise keys, with the lone `add` call-site
attributed to scope `block`. -/
def ctxAdd : Ctx :=
  { nnts := [("add", ("block", "function")), ("mul", ("block", "function"))],
    modTypes := [],
    reg := { moduleTypes := [],
             funcKeys := ["<built-in function add>", "<built-in function mul>"],
             funcInitParams := [] } }

/-- The state reached after transforming a single placeholder named `x`
(also the image of `runTransform` on the one-placeholder graph). -/
def stPh : St :=
  ⟨⟨["x"], []⟩, [⟨"x", .placeholder, "x", [], []⟩], []⟩

/-- A registered function key that is a proper substring of
`"<built-in function mul>"`. -/
def ctxSubMul : Ctx :=
  { nnts := [("mul", ("blk", "function"))],
    modTypes := [],
    reg := { moduleTypes := [],
             funcKeys := ["mul"],
             funcInitParams := [] } }

/-- Scenario D of the spec: a `matmul` call at scope `block.attn` (no
underscore in the scope path). -/
def ctxMatmulD : Ctx :=
  { nnts := [("matmul", ("block.attn", "function"))],
    modTypes := [],
    reg := { moduleTypes := [],
             funcKeys := ["<built-in function matmul>"],
             funcInitParams := [] } }

/-- A registered `add` whose call-site name is absent from the scope
table. -/
def ctxNoScope : Ctx :=
  { nnts := [], modTypes := [],
    reg := { moduleTypes := [], funcKeys := ["<built-in function add>"],
             funcInitParams := [] } }

/-- The state produced by transforming `gMatmulU` under `ctxMatmulU`. -/
def stMatmulU : St :=
  { ns := { used := ["block_self_attn_matmul", "matmul"], baseCount := [] },
    out := [{ name := "block_self_attn_matmul", op := .callModule,
              target := "block.self.attn.matmul",
              args := [.lit 3, .lit 4], kwargs := [] }],
    subs := [{ name := "block.self.attn.matmul",
               key := "<built-in function matmul>", viaScope := true }] }

/-- The digit list of `n`, with `0` rendered as the single digit `0`
(matching `Nat.repr 0 = "0"` while `Nat.digits 10 0 = []`). -/
def digitsOf (n : Nat) : List Nat :=
  if n = 0 then [0] else Nat.digits 10 n

/-! ## Injectivity and digit-shape of the decimal rendering

The numeric-suffix scheme concatenates `Nat.repr` onto a base name; the
allocator's freshness argument needs that two distinct suffixes render to
distinct strings, and that a rendered suffix consists of digit characters
only. -/

lemma toDigitsCore_digits (fuel : Nat) : ∀ (n : Nat) (acc : List Char),
    n < fuel → 0 < n →
    Nat.toDigitsCore 10 fuel n acc =
      ((Nat.digits 10 n).map Nat.digitChar).reverse ++ acc := by
  induction fuel with
  | zero => intro n acc h _; omega
  | succ fuel ih =>
    intro n acc hfuel hn
    rw [Nat.digits_def' (by norm_num : (1 : ℕ) < 10) hn]
    simp only [Nat.toDigitsCore]
    by_cases hdiv : n / 10 = 0
    · simp [hdiv]
    · have h1 : n / 10 < n := Nat.div_lt_self hn (by norm_num)
      have h2 : n / 10 < fuel := by omega
      have h3 : 0 < n / 10 := Nat.pos_of_ne_zero hdiv
      simp only [hdiv, if_false, ih (n / 10) _ h2 h3]
      simp

lemma repr_toList (n : Nat) :
    (Nat.repr n).toList = ((digitsOf n).map Nat.digitChar).reverse := by
  by_cases hn : n = 0
  · subst hn; rfl
  · show (Nat.toDigits 10 n).asString.toList = _
    rw [List.toList_asString]
    unfold Nat.toDigits
    rw [toDigitsCore_digits (n + 1) n [] (by omega) (Nat.pos_of_ne_zero hn)]
    simp [digitsOf, hn]

lemma digitsOf_lt (n : Nat) : ∀ x ∈ digitsOf n, x < 10 := by
  intro x hx
  unfold digitsOf at hx
  by_cases hn : n = 0
  · simp [hn] at hx; omega
  · simp only [hn, if_false] at hx
    exact Nat.digits_lt_base (by norm_num) hx

lemma digitsOf_inj {m n : Nat} (h : digitsOf m = digitsOf n) : m = n := by
  have hm' := Nat.ofDigits_digits 10 m
  have hn' := Nat.ofDigits_digits 10 n
  by_cases hm : m = 0
  · by_cases hn : n = 0
    · omega
    · exfalso
      unfold digitsOf at h
      simp only [hm, hn, if_true, if_false] at h
      rw [← h] at hn'
      simp [Nat.ofDigits] at hn'
      omega
  · by_cases hn : n = 0
    · exfalso
      unfold digitsOf at h
      simp only [hm, hn, if_true, if_false] at h
      rw [h] at hm'
      simp [Nat.ofDigits] at hm'
      omega
    · unfold digitsOf at h
      simp only [hm, hn, if_false] at h
      rw [← hm', ← hn', h]

lemma digitChar_injOn : ∀ a, a < 10 → ∀ b, b < 10 →
    Nat.digitChar a = Nat.digitChar b → a = b := by decide

lemma digitChar_isDigit : ∀ a, a < 10 → (Nat.digitChar a).isDigit = true := by decide

lemma map_digitChar_inj : ∀ (l₁ l₂ : List Nat), (∀ x ∈ l₁, x < 10) → (∀ x ∈ l₂, x < 10) →
    l₁.map Nat.digitChar = l₂.map Nat.digitChar → l₁ = l₂
  | [], [], _, _, _ => rfl
  | [], _ :: _, _, _, h => by simp at h
  | _ :: _, [], _, _, h => by simp at h
  | a :: l₁, b :: l₂, h₁, h₂, h => by
    simp only [List.map_cons, List.cons.injEq] at h
    have hab : a = b := digitChar_injOn a (h₁ a (by simp)) b (h₂ b (by simp)) h.1
    have ht := map_digitChar_inj l₁ l₂ (fun x hx => h₁ x (by simp [hx]))
      (fun x hx => h₂ x (by simp [hx])) h.2
    simp [hab, ht]

lemma nat_repr_inj {m n : Nat} (h : Nat.repr m = Nat.repr n) : m = n := by
  have h' : (Nat.repr m).toList = (Nat.repr n).toList := by rw [h]
  rw [repr_toList, repr_toList] at h'
  have h'' := List.reverse_injective h'
  exact digitsOf_inj (map_digitChar_inj _ _ (digitsOf_lt m) (digitsOf_lt n) h'')

lemma repr_chars_isDigit (n : Nat) : ∀ c ∈ (Nat.repr n).toList, c.isDigit = true := by
  intro c hc
  rw [repr_toList, List.mem_reverse, List.mem_map] at hc
  obtain ⟨d, hd, rfl⟩ := hc
  exact digitChar_isDigit d (digitsOf_lt n d hd)

/-! ## Freshness of the name allocator -/

lemma mkSuffixed_inj {base : String} {m n : Nat}
    (h : mkSuffixed base m = mkSuffixed base n) : m = n := by
  unfold mkSuffixed at h
  have hd : (base ++ "_" ++ Nat.repr m).data = (base ++ "_" ++ Nat.repr n).data := by rw [h]
  simp only [String.data_append] at hd
  have := List.append_cancel_left hd
  exact nat_repr_inj (String.toList_inj.mp this)

lemma findAvail_ge (base : String) (fuel : Nat) : ∀ (n : Nat) (used : List String),
    n ≤ findAvail base fuel n used := by
  induction fuel with
  | zero => intro n used; simp [findAvail]
  | succ fuel ih =>
    intro n used
    simp only [findAvail]
    split
    · exact le_trans (by omega) (ih (n + 1) _)
    · exact le_refl n

lemma findAvail_fresh (base : String) (fuel : Nat) : ∀ (n : Nat) (used : List String),
    used.length ≤ fuel → mkSuffixed base (findAvail base fuel n used) ∉ used := by
  induction fuel with
  | zero =>
    intro n used hlen
    have : used = [] := List.eq_nil_of_length_eq_zero (by omega)
    simp [this]
  | succ fuel ih =>
    intro n used hlen
    simp only [findAvail]
    split
    · next hmem =>
      set m := findAvail base fuel (n + 1) (used.erase (mkSuffixed base n)) with hm
      have hlen' : (used.erase (mkSuffixed base n)).length ≤ fuel := by
        rw [List.length_erase_of_mem hmem]; omega
      have hfresh := ih (n + 1) _ hlen'
      have hge : n + 1 ≤ m := findAvail_ge base fuel (n + 1) _
      intro hin
      by_cases heq : mkSuffixed base m = mkSuffixed base n
      · have := mkSuffixed_inj heq; omega
      · exact hfresh ((List.mem_erase_of_ne heq).mpr hin)
    · next hmem => exact hmem

lemma getNameForFuncNodes_fresh (cand : String) (ns : NamespaceState) :
    getNameForFuncNodes cand ns ∉ ns.used := by
  unfold getNameForFuncNodes resolveName
  by_cases h : sanitize cand ∈ ns.used
  · simp only [h, if_true]
    exact findAvail_fresh (sanitize cand) ns.used.length _ ns.used (le_refl _)
  · simp [h]

/-! ## The sanitize / relocate round-trip -/

lemma replaceChar_toList (a b : Char) (s : String) :
    (replaceChar a b s).toList = s.toList.map (fun c => if c = a then b else c) := by
  unfold replaceChar
  exact List.toList_asString _

lemma sanitize_toList (s : String) :
    (sanitize s).toList = s.toList.map (fun c => if c = '.' then '_' else c) :=
  replaceChar_toList '.' '_' s

lemma sanitize_no_dot (s : String) : '.' ∉ (sanitize s).toList := by
  rw [sanitize_toList]
  intro hmem
  rw [List.mem_map] at hmem
  obtain ⟨c, _, hc⟩ := hmem
  by_cases h : c = '.'
  · simp [h] at hc
  · simp [h] at hc

lemma toList_append (s t : String) : (s ++ t).toList = s.toList ++ t.toList := rfl

lemma sanitize_append (s t : String) : sanitize (s ++ t) = sanitize s ++ sanitize t := by
  rw [← String.toList_inj]
  simp only [sanitize_toList, toList_append, List.map_append]

lemma mkSuffixed_toList (base : String) (n : Nat) :
    (mkSuffixed base n).toList = base.toList ++ '_' :: (Nat.repr n).toList := by
  show (base ++ "_" ++ Nat.repr n).toList = _
  rw [toList_append, toList_append, List.append_assoc]
  have h1 : "_".toList ++ (Nat.repr n).toList = '_' :: (Nat.repr n).toList := rfl
  rw [h1]

lemma mkSuffixed_no_dot {base : String} (h : '.' ∉ base.toList) (n : Nat) :
    '.' ∉ (mkSuffixed base n).toList := by
  rw [mkSuffixed_toList]
  intro hmem
  rcases List.mem_append.mp hmem with h1 | h1
  · exact h h1
  · rcases List.mem_cons.mp h1 with h2 | h2
    · exact absurd h2 (by decide)
    · have := repr_chars_isDigit n _ h2
      exact absurd this (by decide)

lemma mkSuffixed_has_us (base : String) (n : Nat) : '_' ∈ (mkSuffixed base n).toList := by
  rw [mkSuffixed_toList]
  exact List.mem_append.mpr (Or.inr (List.mem_cons_self _ _))

lemma getNameForFuncNodes_no_dot (cand : String) (ns : NamespaceState) :
    '.' ∉ (getNameForFuncNodes cand ns).toList := by
  unfold getNameForFuncNodes resolveName
  by_cases h : sanitize cand ∈ ns.used
  · simp only [h, if_true]
    exact mkSuffixed_no_dot (sanitize_no_dot cand) _
  · simp only [h, if_false]
    exact sanitize_no_dot cand

lemma getNameForFuncNodes_has_us {cand : String} (ns : NamespaceState)
    (h : '_' ∈ (sanitize cand).toList) :
    '_' ∈ (getNameForFuncNodes cand ns).toList := by
  unfold getNameForFuncNodes resolveName
  by_cases hm : sanitize cand ∈ ns.used
  · simp only [hm, if_true]
    exact mkSuffixed_has_us _ _
  · simp only [hm, if_false]
    exact h

lemma rfindDot_none : ∀ (l : List Char), rfindDot l = none → '.' ∉ l := by
  intro l
  induction l with
  | nil => intro _ h; exact absurd h (List.not_mem_nil _)
  | cons a t ih =>
    intro h
    unfold rfindDot at h
    rcases ht : rfindDot t with _ | i
    · rw [ht] at h
      by_cases ha : a = '.'
      · simp [ha] at h
      · intro hmem
        rcases List.mem_cons.mp hmem with h1 | h1
        · exact ha h1.symm
        · exact ih ht h1
    · rw [ht] at h
      simp at h

lemma rfindDot_spec : ∀ (l : List Char) (i : Nat), rfindDot l = some i →
    i < l.length ∧ l[i]? = some '.' := by
  intro l
  induction l with
  | nil => intro i h; simp [rfindDot] at h
  | cons a t ih =>
    intro i h
    unfold rfindDot at h
    rcases ht : rfindDot t with _ | j
    · rw [ht] at h
      by_cases ha : a = '.'
      · simp only [ha, if_true] at h
        obtain rfl : (0 : Nat) = i := Option.some.inj h
        simp [ha]
      · simp [ha] at h
    · rw [ht] at h
      obtain rfl : j + 1 = i := Option.some.inj h
      obtain ⟨h1, h2⟩ := ih j ht
      constructor
      · simp; omega
      · simpa using h2

/-- Undoing the allocation-name surgery: on a dot-free string that contains
an underscore (every collision-resolved scoped candidate has this shape),
sanitizing the relocated name gives back the original string. -/
lemma sanitize_relocateName (s : String) (hdot : '.' ∉ s.toList)
    (hus : '_' ∈ s.toList) : sanitize (relocateName s) = s := by
  have hmapinv : ∀ c ∈ s.toList,
      (if (if c = '_' then '.' else c) = '.' then '_' else (if c = '_' then '.' else c)) = c := by
    intro c hc
    by_cases h1 : c = '_'
    · simp [h1]
    · have h2 : c ≠ '.' := fun hc' => hdot (hc' ▸ hc)
      simp [h1, h2]
  have hrl : (replaceChar '_' '.' s).toList
      = s.toList.map (fun c => if c = '_' then '.' else c) := replaceChar_toList _ _ s
  have hginv : (s.toList.map (fun c => if c = '_' then '.' else c)).map
      (fun c => if c = '.' then '_' else c) = s.toList := by
    rw [List.map_map]
    exact (List.map_congr_left hmapinv).trans (List.map_id _)
  unfold relocateName relocGo
  rw [hrl]
  split
  · next hlast =>
    rw [List.getLast?_eq_none_iff] at hlast
    have h0 : s.toList = [] := List.eq_nil_of_map_eq_nil hlast
    rw [h0] at hus
    exact absurd hus (List.not_mem_nil _)
  · next c hlast =>
    split
    · split
      · next i hrf =>
        obtain ⟨hilt, hival⟩ := rfindDot_spec _ i hrf
        rw [← String.toList_inj, sanitize_toList, List.toList_asString,
          List.map_append, List.map_cons, List.map_take, List.map_drop, hginv]
        have hsi : i < s.toList.length := by
          rw [List.length_map] at hilt
          exact hilt
        have hchar : s.toList[i] = '_' := by
          have hmi : (s.toList.map (fun c => if c = '_' then '.' else c))[i] = '.' := by
            have h1 := List.getElem?_eq_getElem hilt
            rw [hival] at h1
            exact (Option.some.inj h1).symm
          rw [List.getElem_map] at hmi
          by_cases h1 : s.toList[i] = '_'
          · exact h1
          · exfalso
            simp only [h1, if_false] at hmi
            exact hdot (hmi ▸ List.getElem_mem hsi)
        have : (if '_' = '.' then '_' else '_') = '_' := by decide
        rw [this]
        conv_rhs => rw [← List.take_append_drop i s.toList]
        rw [List.drop_eq_getElem_cons hsi, hchar]
      · next hrf =>
        exfalso
        have hdotmem : '.' ∈ s.toList.map (fun c => if c = '_' then '.' else c) :=
          List.mem_map.mpr ⟨'_', hus, by simp⟩
        exact rfindDot_none _ hrf hdotmem
    · rw [← String.toList_inj, sanitize_toList, List.toList_asString, hginv]

/-- Round trip in the other direction: relocating a sanitized name whose
original form has no underscore and does not end in a digit gives back the
original (used by the matmul naming theorem, where the candidate ends in
the non-digit letter of `.matmul`). -/
lemma relocateName_sanitize (x : String) (hus : '_' ∉ x.toList)
    (hne : x.toList ≠ [])
    (hd : ∀ c, x.toList.getLast? = some c → c.isDigit = false) :
    relocateName (sanitize x) = x := by
  have hfg : ∀ c ∈ x.toList,
      (if (if c = '.' then '_' else c) = '_' then '.' else (if c = '.' then '_' else c)) = c := by
    intro c hc
    by_cases h1 : c = '.'
    · simp [h1]
    · have h2 : c ≠ '_' := fun hc' => hus (hc' ▸ hc)
      simp [h1, h2]
  have hrl : (replaceChar '_' '.' (sanitize x)).toList = x.toList := by
    rw [replaceChar_toList, sanitize_toList, List.map_map]
    exact (List.map_congr_left hfg).trans (List.map_id _)
  unfold relocateName relocGo
  rw [hrl]
  split
  · next hlast =>
    rw [List.getLast?_eq_none_iff] at hlast
    exact absurd hlast hne
  · next c hlast =>
    have hcd := hd c hlast
    split
    · next hdig => rw [hcd] at hdig; exact absurd hdig (by decide)
    · exact String.asString_toList x

/-! ## Monotonicity of the namespace through the pass -/

lemma createName_used_mono (cand : String) (ns : NamespaceState) :
    ns.used ⊆ ((createName cand ns).2).used := by
  unfold createName
  rcases h : resolveName cand ns with ⟨nm, _ | num⟩ <;>
    exact List.subset_cons_self _ _

lemma createName_sanitize_mem (cand : String) (ns : NamespaceState) :
    sanitize cand ∈ ((createName cand ns).2).used := by
  by_cases h : sanitize cand ∈ ns.used
  · exact createName_used_mono cand ns h
  · have hname : resolveName cand ns = (sanitize cand, none) := by
      unfold resolveName
      simp [h]
    unfold createName
    rw [hname]
    exact List.mem_cons_self _ _

lemma emitPass_ns_mono (st : St) (cand : String) (o : Op) (tg : String)
    (args : List Arg) (kwargs : List (String × Arg)) :
    st.ns.used ⊆ (emitPass st cand o tg args kwargs).ns.used :=
  createName_used_mono cand st.ns

lemma emitPass_subs (st : St) (cand : String) (o : Op) (tg : String)
    (args : List Arg) (kwargs : List (String × Arg)) :
    (emitPass st cand o tg args kwargs).subs = st.subs := rfl

lemma finishFuncReplace_ns_mono (ctx : Ctx) (st : St) (key cand nw : String)
    (b : Bool) (args : List Arg) (kw : List (String × Arg)) :
    st.ns.used ⊆ (finishFuncReplace ctx st key cand nw b args kw).ns.used := by
  intro a ha
  show a ∈ (createName nw (if nw ≠ cand then (createName cand st.ns).2 else st.ns)).2.used
  apply createName_used_mono
  by_cases h : nw ≠ cand
  · rw [if_pos h]
    exact createName_used_mono cand st.ns ha
  · rw [if_neg h]
    exact ha

lemma finishFuncReplace_subs (ctx : Ctx) (st : St) (key cand nw : String)
    (b : Bool) (args : List Arg) (kw : List (String × Arg)) :
    (finishFuncReplace ctx st key cand nw b args kw).subs = st.subs ++ [⟨nw, key, b⟩] := rfl

lemma finishFuncReplace_sanitize_mem (ctx : Ctx) (st : St) (key cand nw : String)
    (b : Bool) (args : List Arg) (kw : List (String × Arg)) :
    sanitize nw ∈ (finishFuncReplace ctx st key cand nw b args kw).ns.used := by
  show sanitize nw ∈ (createName nw (if nw ≠ cand then (createName cand st.ns).2 else st.ns)).2.used
  exact createName_sanitize_mem nw _

lemma finishMethodReplace_ns_mono (st : St) (cand nw : String)
    (args : List Arg) (kw : List (String × Arg)) :
    st.ns.used ⊆ (finishMethodReplace st cand nw args kw).ns.used := by
  intro a ha
  show a ∈ (createName nw (if nw ≠ cand then (createName cand st.ns).2 else st.ns)).2.used
  apply createName_used_mono
  by_cases h : nw ≠ cand
  · rw [if_pos h]
    exact createName_used_mono cand st.ns ha
  · rw [if_neg h]
    exact ha

lemma finishMethodReplace_subs (st : St) (cand nw : String)
    (args : List Arg) (kw : List (String × Arg)) :
    (finishMethodReplace st cand nw args kw).subs
      = st.subs ++ [⟨nw, "dmx.nn.BAddBMM", false⟩] := rfl

/-! ## Freshness and sanitized form of the scoped names -/

lemma sanitize_scoped_cand (ns : NamespaceState) (candN : String)
    (hus : '_' ∈ (sanitize candN).toList) :
    sanitize (createUniqueNameInScope ns candN) = getNameForFuncNodes candN ns := by
  unfold createUniqueNameInScope
  exact sanitize_relocateName _ (getNameForFuncNodes_no_dot candN ns)
    (getNameForFuncNodes_has_us ns hus)

lemma sanitize_dotted_has_us (sc suffix : String)
    (h : '_' ∈ (sanitize suffix).toList) :
    '_' ∈ (sanitize (sc ++ suffix)).toList := by
  rw [sanitize_append, toList_append]
  exact List.mem_append.mpr (Or.inr h)

lemma resadd_has_us : '_' ∈ (sanitize ".resadd").toList := by decide

lemma muldot_has_us : '_' ∈ (sanitize ".mul").toList := by decide

lemma matmuldot_has_us : '_' ∈ (sanitize ".matmul").toList := by decide

/-! ## Shape of one transformation step -/

/-- Every successful step grows the used-name set monotonically and either
leaves the submodule registrations unchanged or appends exactly one; a
registration coming from the scoped naming path carries a name whose
sanitized form was fresh before the step and is recorded after it. -/
lemma stepNode_shape (ctx : Ctx) (st : St) (n : Node) (st' : St)
    (h : stepNode ctx st n = .ok st') :
    st.ns.used ⊆ st'.ns.used ∧
    (st'.subs = st.subs ∨
      ∃ e : Sub, st'.subs = st.subs ++ [e] ∧
        (e.viaScope = true →
          sanitize e.name ∉ st.ns.used ∧ sanitize e.name ∈ st'.ns.used)) := by
  obtain ⟨op, tg, fn, args, kw⟩ := n
  cases op
  case placeholder =>
    simp only [stepNode] at h
    injection h with h
    subst h
    exact ⟨emitPass_ns_mono _ _ _ _ _ _, Or.inl rfl⟩
  case getAttr =>
    simp only [stepNode] at h
    injection h with h
    subst h
    exact ⟨emitPass_ns_mono _ _ _ _ _ _, Or.inl rfl⟩
  case output =>
    simp only [stepNode] at h
    injection h with h
    subst h
    exact ⟨emitPass_ns_mono _ _ _ _ _ _, Or.inl rfl⟩
  case callModule =>
    simp only [stepNode] at h
    split at h
    · exact Except.noConfusion h
    · next nodeKey _ =>
      split at h
      · split at h
        · next i tail _ =>
          injection h with h
          subst h
          refine ⟨createName_used_mono _ _, Or.inr ⟨⟨tg, nodeKey, false⟩, rfl, ?_⟩⟩
          intro hv
          exact Bool.noConfusion hv
        · exact Except.noConfusion h
      · injection h with h
        subst h
        exact ⟨emitPass_ns_mono _ _ _ _ _ _, Or.inl rfl⟩
  case callMethod =>
    simp only [stepNode] at h
    split at h
    · split at h
      · exact Except.noConfusion h
      · injection h with h
        subst h
        refine ⟨finishMethodReplace_ns_mono _ _ _ _ _,
          Or.inr ⟨⟨_, "dmx.nn.BAddBMM", false⟩, rfl, ?_⟩⟩
        intro hv
        exact Bool.noConfusion hv
    · injection h with h
      subst h
      exact ⟨emitPass_ns_mono _ _ _ _ _ _, Or.inl rfl⟩
  case callFunction =>
    simp only [stepNode] at h
    split at h
    · split at h
      · exact Except.noConfusion h
      · split at h
        · -- addLike
          split at h
          · -- args = a0 :: a1 :: rest
            split at h
            · injection h with h
              subst h
              refine ⟨finishFuncReplace_ns_mono _ _ _ _ _ _ _ _,
                Or.inr ⟨⟨_, tg, true⟩, rfl, fun _ => ⟨?_, ?_⟩⟩⟩
              · rw [sanitize_scoped_cand st.ns _
                  (sanitize_dotted_has_us _ _ resadd_has_us)]
                exact getNameForFuncNodes_fresh _ _
              · exact finishFuncReplace_sanitize_mem _ _ _ _ _ _ _ _
            · injection h with h
              subst h
              exact ⟨emitPass_ns_mono _ _ _ _ _ _, Or.inl rfl⟩
          · exact Except.noConfusion h
        · -- mulLike
          split at h
          · split at h
            · injection h with h
              subst h
              refine ⟨finishFuncReplace_ns_mono _ _ _ _ _ _ _ _,
                Or.inr ⟨⟨_, tg, true⟩, rfl, fun _ => ⟨?_, ?_⟩⟩⟩
              · rw [sanitize_scoped_cand st.ns _
                  (sanitize_dotted_has_us _ _ muldot_has_us)]
                exact getNameForFuncNodes_fresh _ _
              · exact finishFuncReplace_sanitize_mem _ _ _ _ _ _ _ _
            · injection h with h
              subst h
              exact ⟨emitPass_ns_mono _ _ _ _ _ _, Or.inl rfl⟩
          · exact Except.noConfusion h
        · -- matmulLike
          injection h with h
          subst h
          refine ⟨finishFuncReplace_ns_mono _ _ _ _ _ _ _ _,
            Or.inr ⟨⟨_, tg, true⟩, rfl, fun _ => ⟨?_, ?_⟩⟩⟩
          · rw [sanitize_scoped_cand st.ns _
              (sanitize_dotted_has_us _ _ matmuldot_has_us)]
            exact getNameForFuncNodes_fresh _ _
          · exact finishFuncReplace_sanitize_mem _ _ _ _ _ _ _ _
        · -- generic
          injection h with h
          subst h
          refine ⟨finishFuncReplace_ns_mono _ _ _ _ _ _ _ _,
            Or.inr ⟨⟨_, tg, false⟩, rfl, ?_⟩⟩
          intro hv
          exact Bool.noConfusion hv
    · injection h with h
      subst h
      exact ⟨emitPass_ns_mono _ _ _ _ _ _, Or.inl rfl⟩

/-! ## The uniqueness invariant through a run -/

lemma goodState_step (ctx : Ctx) (st : St) (n : Node) (st' : St)
    (h : stepNode ctx st n = .ok st') (hg : goodState st) : goodState st' := by
  obtain ⟨hmono, hsub⟩ := stepNode_shape ctx st n st' h
  rcases hsub with heq | ⟨e, heq, hscoped⟩
  · constructor
    · show (scopedNames st').Nodup
      unfold scopedNames
      rw [heq]
      exact hg.1
    · intro nm hnm
      unfold scopedNames at hnm
      rw [heq] at hnm
      exact hmono (hg.2 nm hnm)
  · cases hvb : e.viaScope
    · have hsn : scopedNames st' = scopedNames st := by
        unfold scopedNames
        rw [heq, List.filter_append, List.map_append]
        simp [hvb]
      constructor
      · rw [hsn]; exact hg.1
      · intro nm hnm
        rw [hsn] at hnm
        exact hmono (hg.2 nm hnm)
    · obtain ⟨hfresh, hmem⟩ := hscoped hvb
      have hsn : scopedNames st' = scopedNames st ++ [e.name] := by
        unfold scopedNames
        rw [heq, List.filter_append, List.map_append]
        simp [hvb]
      constructor
      · rw [hsn]
        refine List.Nodup.append hg.1 (List.nodup_singleton _) ?_
        intro x hx hx'
        rw [List.mem_singleton] at hx'
        subst hx'
        exact hfresh (hg.2 _ hx)
      · intro nm hnm
        rw [hsn] at hnm
        rcases List.mem_append.mp hnm with h1 | h1
        · exact hmono (hg.2 nm h1)
        · rw [List.mem_singleton] at h1
          subst h1
          exact hmem

lemma runFrom_good (ctx : Ctx) : ∀ (g : List Node) (st st' : St),
    runFrom ctx st g = .ok st' → goodState st → goodState st'
  | [], st, st', h, hg => by
    simp only [runFrom] at h
    injection h with h
    subst h
    exact hg
  | n :: rest, st, st', h, hg => by
    simp only [runFrom] at h
    split at h
    · next st1 hs =>
      exact runFrom_good ctx rest st1 st' h (goodState_step ctx st n st1 hs hg)
    · exact Except.noConfusion h

lemma runFrom_error_prop (ctx : Ctx) (st : St) (n : Node) (rest : List Node)
    (e : String) (h : stepNode ctx st n = .error e) :
    runFrom ctx st (n :: rest) = .error e := by
  simp only [runFrom, h]

lemma stepNode_out_length (ctx : Ctx) (st : St) (n : Node) (st' : St)
    (h : stepNode ctx st n = .ok st') : st'.out.length = st.out.length + 1 := by
  obtain ⟨op, tg, fn, args, kw⟩ := n
  cases op <;> simp only [stepNode] at h <;>
    repeat (first
      | (injection h with h; subst h;
         simp [emitPass, finishFuncReplace, finishMethodReplace])
      | exact Except.noConfusion h
      | split at h)

lemma runFrom_out_length (ctx : Ctx) : ∀ (g : List Node) (st st' : St),
    runFrom ctx st g = .ok st' → st'.out.length = st.out.length + g.length
  | [], st, st', h => by
    simp only [runFrom] at h
    injection h with h
    subst h
    simp
  | n :: rest, st, st', h => by
    simp only [runFrom] at h
    split at h
    · next st1 hs =>
      have h1 := stepNode_out_length ctx st n st1 hs
      have h2 := runFrom_out_length ctx rest st1 st' h
      simp only [List.length_cons]
      omega
    · exact Except.noConfusion h

/-! ## Evaluation of one `call_function` step under known classification -/

lemma classify_add : classifyFunc "<built-in function add>" = .addLike := by decide

lemma classify_mul : classifyFunc "<built-in function mul>" = .mulLike := by decide

lemma classify_substr_mul (key : String) (hne : key ≠ "<built-in function add>")
    (hsub : containsSub key "<built-in function mul>" = true) :
    classifyFunc key = .mulLike := by
  unfold classifyFunc
  rw [if_neg hne, if_pos hsub]

lemma classify_matmul (key : String)
    (hkey : key = torchMatmulRepr ∨ key = torchBmmRepr
      ∨ key = "<built-in function matmul>") :
    classifyFunc key = .matmulLike := by
  rcases hkey with rfl | rfl | rfl <;> decide

lemma step_addmul_replace (ctx : Ctx) (st : St) (key fn suffix : String)
    (sc : String × String) (a0 a1 : Arg) (rest : List Arg)
    (kw : List (String × Arg))
    (hcl : (classifyFunc key = .addLike ∧ suffix = ".resadd")
      ∨ (classifyFunc key = .mulLike ∧ suffix = ".mul"))
    (hreg : key ∈ ctx.reg.funcKeys)
    (hsc : List.lookup (getNameForFuncNodes fn st.ns) ctx.nnts = some sc)
    (hg : (graphProducedB st a0 && graphProducedB st a1) = true) :
    stepNode ctx st ⟨.callFunction, key, fn, a0 :: a1 :: rest, kw⟩
      = .ok (finishFuncReplace ctx st key fn
          (createUniqueNameInScope st.ns (sc.1 ++ suffix)) true (a0 :: a1 :: rest) kw) := by
  rcases hcl with ⟨hcl, rfl⟩ | ⟨hcl, rfl⟩ <;>
    simp only [stepNode, hreg, hsc, hcl, hg, if_true]

lemma step_addmul_pass (ctx : Ctx) (st : St) (key fn : String)
    (sc : String × String) (a0 a1 : Arg) (rest : List Arg)
    (kw : List (String × Arg))
    (hcl : classifyFunc key = .addLike ∨ classifyFunc key = .mulLike)
    (hreg : key ∈ ctx.reg.funcKeys)
    (hsc : List.lookup (getNameForFuncNodes fn st.ns) ctx.nnts = some sc)
    (hg : (graphProducedB st a0 && graphProducedB st a1) = false) :
    stepNode ctx st ⟨.callFunction, key, fn, a0 :: a1 :: rest, kw⟩
      = .ok (emitPass st fn .callFunction key (a0 :: a1 :: rest) kw) := by
  rcases hcl with hcl | hcl <;>
    simp only [stepNode, hreg, hsc, hcl, hg, if_true, Bool.false_eq_true, if_false]

lemma step_matmul_replace (ctx : Ctx) (st : St) (key fn : String)
    (sc : String × String) (args : List Arg) (kw : List (String × Arg))
    (hcl : classifyFunc key = .matmulLike)
    (hreg : key ∈ ctx.reg.funcKeys)
    (hsc : List.lookup (getNameForFuncNodes fn st.ns) ctx.nnts = some sc) :
    stepNode ctx st ⟨.callFunction, key, fn, args, kw⟩
      = .ok (finishFuncReplace ctx st key fn
          (createUniqueNameInScope st.ns (sc.1 ++ ".matmul")) true args kw) := by
  simp only [stepNode, hreg, hsc, hcl, if_true]

lemma step_scope_missing (ctx : Ctx) (st : St) (key fn : String)
    (args : List Arg) (kw : List (String × Arg))
    (hreg : key ∈ ctx.reg.funcKeys)
    (hsc : List.lookup (getNameForFuncNodes fn st.ns) ctx.nnts = none) :
    stepNode ctx st ⟨.callFunction, key, fn, args, kw⟩
      = .error ("KeyError: " ++ getNameForFuncNodes fn st.ns) := by
  simp only [stepNode, hreg, hsc, if_true]

lemma step_baddbmm_scope_missing (ctx : Ctx) (st : St)
    (args : List Arg) (kw : List (String × Arg))
    (hsc : List.lookup (getNameForFuncNodes "baddbmm" st.ns) ctx.nnts = none) :
    stepNode ctx st ⟨.callMethod, "baddbmm", "", args, kw⟩
      = .error ("KeyError: " ++ getNameForFuncNodes "baddbmm" st.ns) := by
  simp only [stepNode, hsc, if_true]

/-! ## Claim theorems -/

/-- **C9**: `dmx_transform` fails (the `RuntimeError`) exactly when the
named configuration file cannot be located and the requested name is not
one of the recognized fallbacks `"BASELINE"`/`"BASIC"`; with a recognized
fallback name and no located file, the model is transformed with the
baseline configuration and that name's rule set. -/
theorem dmx_transform_error_iff (configFile : Option String) (name : String) :
    ((∃ e, dmx_transform configFile name = .error e)
      ↔ (configFile = none ∧ name ≠ "BASELINE" ∧ name ≠ "BASIC"))
    ∧ (configFile = none → (name = "BASELINE" ∨ name = "BASIC") →
        dmx_transform configFile name = .ok (.baselineWith name)) := by
  constructor
  · constructor
    · rintro ⟨e, he⟩
      rcases configFile with _ | f
      · simp only [dmx_transform] at he
        by_cases hb : name = "BASELINE" ∨ name = "BASIC"
        · rw [if_pos hb] at he
          exact Except.noConfusion he
        · push_neg at hb
          exact ⟨rfl, hb.1, hb.2⟩
      · simp only [dmx_transform] at he
        exact Except.noConfusion he
    · rintro ⟨rfl, h1, h2⟩
      refine ⟨"illegal dmx_config: " ++ name, ?_⟩
      simp only [dmx_transform]
      rw [if_neg (by tauto)]
  · rintro rfl hb
    simp only [dmx_transform]
    rw [if_pos hb]

/-- Witness for C9: with no located file, the fallback name `"BASELINE"`
transforms with the baseline configuration. -/
theorem dmx_transform_error_iff_witness :
    dmx_transform none "BASELINE" = .ok (.baselineWith "BASELINE") :=
  (dmx_transform_error_iff none "BASELINE").2 rfl (Or.inl rfl)

/-- **C3**: the transformation is a deterministic function of the input
graph, the scope table and the registries: two runs of the same graph from
fresh allocator states yield identical results — the same node sequence,
the same allocated names, the same registrations. -/
theorem transform_deterministic (ctx : Ctx) (g : List Node) (st1 st2 : St)
    (h1 : st1 = initialState) (h2 : st2 = initialState) :
    runFrom ctx st1 g = runFrom ctx st2 g := by
  rw [h1, h2]

/-- Witness for C3 at a concrete graph. -/
theorem transform_deterministic_witness :
    runFrom ctxMatmulU initialState gMatmulU = runFrom ctxMatmulU initialState gMatmulU :=
  transform_deterministic ctxMatmulU gMatmulU initialState initialState rfl rfl

/-- **C5**: a successfully transformed graph has exactly as many output
nodes as input nodes — every handler emits exactly one node, with no
expansion and no deletion. -/
theorem node_count_preserved (ctx : Ctx) (g : List Node) (st : St)
    (h : runTransform ctx g = .ok st) : st.out.length = g.length := by
  have h1 := runFrom_out_length ctx g initialState st h
  simpa [initialState] using h1

/-- Witness for C5 at a concrete one-node graph. -/
theorem node_count_preserved_witness : stMatmulU.out.length = gMatmulU.length :=
  node_count_preserved ctxMatmulU gMatmulU stMatmulU rfl

/-- **C8**: a function-call node with a registry entry, or a `baddbmm`
method call, whose recomputed call-site name is missing from the
node-to-scope table makes the step fail with the lookup error, and a
failing step aborts the whole run: no output graph is produced and the
call-site is never silently skipped. -/
theorem missing_scope_fatal :
    (∀ (ctx : Ctx) (st : St) (key fn : String) (args : List Arg)
        (kw : List (String × Arg)), key ∈ ctx.reg.funcKeys →
      List.lookup (getNameForFuncNodes fn st.ns) ctx.nnts = none →
      stepNode ctx st ⟨.callFunction, key, fn, args, kw⟩
        = .error ("KeyError: " ++ getNameForFuncNodes fn st.ns))
    ∧ (∀ (ctx : Ctx) (st : St) (args : List Arg) (kw : List (String × Arg)),
      List.lookup (getNameForFuncNodes "baddbmm" st.ns) ctx.nnts = none →
      stepNode ctx st ⟨.callMethod, "baddbmm", "", args, kw⟩
        = .error ("KeyError: " ++ getNameForFuncNodes "baddbmm" st.ns))
    ∧ (∀ (ctx : Ctx) (st : St) (n : Node) (rest : List Node) (e : String),
      stepNode ctx st n = .error e → runFrom ctx st (n :: rest) = .error e) :=
  ⟨fun ctx st key fn args kw hreg hsc => step_scope_missing ctx st key fn args kw hreg hsc,
   fun ctx st args kw hsc => step_baddbmm_scope_missing ctx st args kw hsc,
   fun ctx st n rest e h => runFrom_error_prop ctx st n rest e h⟩

/-- Witness for C8: a registered `add` call-site with an empty scope table
aborts with the lookup error. -/
theorem missing_scope_fatal_witness :
    stepNode ctxNoScope initialState
        ⟨.callFunction, "<built-in function add>", "add", [], []⟩
      = .error ("KeyError: " ++ getNameForFuncNodes "add" initialState.ns) :=
  missing_scope_fatal.1 ctxNoScope initialState "<built-in function add>" "add" [] []
    (by decide) (by decide)

/-- **C10**: the elementwise-multiply test of the classifier is Python
substring containment (`node_key in "<built-in function mul>"`), not an
equality test: every registered key other than the add key whose string
form occurs contiguously inside `"<built-in function mul>"` is routed down
the multiply-replacement path — its operands subjected to the provenance
guard — instead of the generic function-replacement path. -/
theorem mul_test_is_substring (ctx : Ctx) (st : St) (key fn : String)
    (sc : String × String) (a0 a1 : Arg) (rest : List Arg)
    (kw : List (String × Arg))
    (hne : key ≠ "<built-in function add>")
    (hsub : containsSub key "<built-in function mul>" = true)
    (hreg : key ∈ ctx.reg.funcKeys)
    (hsc : List.lookup (getNameForFuncNodes fn st.ns) ctx.nnts = some sc) :
    classifyFunc key = .mulLike
    ∧ ((graphProducedB st a0 && graphProducedB st a1) = true →
        stepNode ctx st ⟨.callFunction, key, fn, a0 :: a1 :: rest, kw⟩
          = .ok (finishFuncReplace ctx st key fn
              (createUniqueNameInScope st.ns (sc.1 ++ ".mul")) true (a0 :: a1 :: rest) kw))
    ∧ ((graphProducedB st a0 && graphProducedB st a1) = false →
        stepNode ctx st ⟨.callFunction, key, fn, a0 :: a1 :: rest, kw⟩
          = .ok (emitPass st fn .callFunction key (a0 :: a1 :: rest) kw)) := by
  have hcl := classify_substr_mul key hne hsub
  refine ⟨hcl, fun hg => ?_, fun hg => ?_⟩
  · exact step_addmul_replace ctx st key fn ".mul" sc a0 a1 rest kw
      (Or.inr ⟨hcl, rfl⟩) hreg hsc hg
  · exact step_addmul_pass ctx st key fn sc a0 a1 rest kw (Or.inr hcl) hreg hsc hg

/-- Witness for C10: the bare key `"mul"` — a proper substring of
`"<built-in function mul>"` — is classified onto the multiply path. -/
theorem mul_test_is_substring_witness : classifyFunc "mul" = .mulLike :=
  (mul_test_is_substring ctxSubMul initialState "mul" "mul" ("blk", "function")
    (.lit 1) (.lit 2) [] [] (by decide) (by decide) (by decide) (by decide)).1

lemma rfindDot_append_no_dot (p ds : List Char) (hds : '.' ∉ ds) :
    rfindDot (p ++ '.' :: ds) = some p.length := by
  induction p with
  | nil =>
    have hnone : rfindDot ds = none := by
      rcases h : rfindDot ds with _ | i
      · rfl
      · obtain ⟨_, h2⟩ := rfindDot_spec ds i h
        exact absurd (List.getElem?_mem h2) hds
    simp only [List.nil_append, rfindDot, hnone]
    simp
  | cons a p ih =>
    simp only [List.cons_append, rfindDot, List.append_eq]
    rw [ih]
    simp

lemma relocGo_digit_split (p ds : List Char) (hne : ds ≠ [])
    (hdig : ∀ c ∈ ds, c.isDigit = true) (hds : '.' ∉ ds) :
    relocGo (p ++ '.' :: ds) = (p ++ '_' :: ds).asString := by
  have hassoc : p ++ '.' :: ds = (p ++ ['.']) ++ ds := by simp
  have hlast : (p ++ '.' :: ds).getLast? = ds.getLast? := by
    rw [hassoc]
    exact List.getLast?_append_of_ne_nil _ hne
  obtain ⟨c, hc⟩ := Option.isSome_iff_exists.mp (List.getLast?_isSome.mpr hne)
  have hcds : c ∈ ds := List.mem_of_getLast?_eq_some hc
  have hcd : c.isDigit = true := hdig c hcds
  unfold relocGo
  rw [hlast, hc]
  simp only [hcd, if_true]
  rw [rfindDot_append_no_dot p ds hds]
  have htake : (p ++ '.' :: ds).take p.length = p := List.take_left p _
  have hdrop : (p ++ '.' :: ds).drop (p.length + 1) = ds := by
    rw [hassoc]
    exact List.drop_left' (by simp)
  show ((p ++ '.' :: ds).take p.length ++ '_' :: (p ++ '.' :: ds).drop (p.length + 1)).asString
    = (p ++ '_' :: ds).asString
  rw [htake, hdrop]

/-- **C7**: `create_unique_name_in_scope` is the composition of the
collision resolution with the relocation surgery; the surgery replaces
every underscore by a dot, returning the result unchanged when it does not
end in a digit, and when the dotted form is `p ++ "." ++ ds` with `ds` a
nonempty all-digit run containing no further separator, the result is
`p ++ "_" ++ ds` — the disambiguating underscore is relocated to the final
segment boundary. -/
theorem create_unique_name_relocation (s : String) :
    (∀ (ns : NamespaceState) (candName : String),
        createUniqueNameInScope ns candName
          = relocateName (getNameForFuncNodes candName ns))
    ∧ (∀ c, (replaceChar '_' '.' s).toList.getLast? = some c → c.isDigit = false →
        relocateName s = replaceChar '_' '.' s)
    ∧ (∀ p ds, (replaceChar '_' '.' s).toList = p ++ '.' :: ds → ds ≠ [] →
        (∀ c ∈ ds, c.isDigit = true) → '.' ∉ ds →
        (relocateName s).toList = p ++ '_' :: ds) := by
  refine ⟨fun ns c => rfl, fun c hc hcd => ?_, fun p ds hform hne hdig hds => ?_⟩
  · unfold relocateName relocGo
    split
    · next h0 => rw [h0] at hc; exact Option.noConfusion hc
    · next c' hc' =>
      rw [hc'] at hc
      obtain rfl := Option.some.inj hc
      split
      · next hdg => rw [hcd] at hdg; exact Bool.noConfusion hdg
      · exact String.asString_toList _
  · unfold relocateName
    rw [hform, relocGo_digit_split p ds hne hdig hds]
    exact List.toList_asString _

/-- Witness for C7 at the collision-resolved candidate `block_resadd_1`:
the relocated form `block.resadd.1` ends in the digit run `1`, so the
result is `block.resadd_1`. -/
theorem create_unique_name_relocation_witness :
    (relocateName "block_resadd_1").toList = "block.resadd".toList ++ '_' :: ['1'] :=
  (create_unique_name_relocation "block_resadd_1").2.2 "block.resadd".toList ['1']
    (by decide) (by decide) (by decide) (by decide)

/-- **C1**: a registered elementwise add/multiply call is replaced by a
module-invocation node if and only if both of its first two positional
operands are graph-produced values (results of a module invocation, a
function call, a method call, or a placeholder); otherwise — in particular
when an operand is a host-side literal — the node is passed through
unchanged, and this is not an error. -/
theorem elementwise_guard_iff (ctx : Ctx) (st : St) (key fn : String)
    (sc : String × String) (a0 a1 : Arg) (rest : List Arg)
    (kw : List (String × Arg))
    (hkey : key = "<built-in function add>" ∨ key = "<built-in function mul>")
    (hreg : key ∈ ctx.reg.funcKeys)
    (hsc : List.lookup (getNameForFuncNodes fn st.ns) ctx.nnts = some sc) :
    ((∃ st', stepNode ctx st ⟨.callFunction, key, fn, a0 :: a1 :: rest, kw⟩ = .ok st'
        ∧ st'.subs.length = st.subs.length + 1)
      ↔ (graphProducedB st a0 = true ∧ graphProducedB st a1 = true))
    ∧ ((graphProducedB st a0 = true ∧ graphProducedB st a1 = true) →
        stepNode ctx st ⟨.callFunction, key, fn, a0 :: a1 :: rest, kw⟩
          = .ok (finishFuncReplace ctx st key fn
              (createUniqueNameInScope st.ns
                (sc.1 ++ (if key = "<built-in function add>" then ".resadd" else ".mul")))
              true (a0 :: a1 :: rest) kw))
    ∧ (¬(graphProducedB st a0 = true ∧ graphProducedB st a1 = true) →
        stepNode ctx st ⟨.callFunction, key, fn, a0 :: a1 :: rest, kw⟩
          = .ok (emitPass st fn .callFunction key (a0 :: a1 :: rest) kw)) := by
  have hcl : (classifyFunc key = .addLike
        ∧ (if key = "<built-in function add>" then ".resadd" else ".mul") = ".resadd")
      ∨ (classifyFunc key = .mulLike
        ∧ (if key = "<built-in function add>" then ".resadd" else ".mul") = ".mul") := by
    rcases hkey with rfl | rfl
    · exact Or.inl ⟨classify_add, if_pos rfl⟩
    · exact Or.inr ⟨classify_mul, if_neg (by decide)⟩
  by_cases hg : (graphProducedB st a0 && graphProducedB st a1) = true
  · have hg' : graphProducedB st a0 = true ∧ graphProducedB st a1 = true :=
      Bool.and_eq_true_iff.mp hg
    have hstep : stepNode ctx st ⟨.callFunction, key, fn, a0 :: a1 :: rest, kw⟩
        = .ok (finishFuncReplace ctx st key fn
            (createUniqueNameInScope st.ns
              (sc.1 ++ (if key = "<built-in function add>" then ".resadd" else ".mul")))
            true (a0 :: a1 :: rest) kw) := by
      rcases hcl with ⟨hc1, hc2⟩ | ⟨hc1, hc2⟩ <;> rw [hc2] <;>
        exact step_addmul_replace ctx st key fn _ sc a0 a1 rest kw
          (by first
            | exact Or.inl ⟨hc1, rfl⟩
            | exact Or.inr ⟨hc1, rfl⟩) hreg hsc hg
    refine ⟨⟨fun _ => hg', fun _ => ⟨_, hstep, ?_⟩⟩, fun _ => hstep,
      fun hn => absurd hg' hn⟩
    rw [finishFuncReplace_subs]
    simp
  · have hgf : (graphProducedB st a0 && graphProducedB st a1) = false :=
      Bool.eq_false_iff.mpr hg
    have hng : ¬(graphProducedB st a0 = true ∧ graphProducedB st a1 = true) := by
      rw [← Bool.and_eq_true_iff]
      exact hg
    have hstep := step_addmul_pass ctx st key fn sc a0 a1 rest kw
      (hcl.imp (fun p => p.1) (fun p => p.1)) hreg hsc hgf
    refine ⟨⟨?_, fun hc => absurd hc hng⟩, fun hc => absurd hc hng, fun _ => hstep⟩
    rintro ⟨st', hst, hlen⟩
    rw [hstep] at hst
    obtain rfl := Except.ok.inj hst
    rw [emitPass_subs] at hlen
    omega

/-- Witness for C1: an `add` of two placeholder results is replaced. -/
theorem elementwise_guard_iff_witness :
    ∃ st', stepNode ctxAdd stPh
        ⟨.callFunction, "<built-in function add>", "add", [.ref 0, .ref 0], []⟩ = .ok st'
      ∧ st'.subs.length = stPh.subs.length + 1 :=
  ((elementwise_guard_iff ctxAdd stPh "<built-in function add>" "add"
      ("block", "function") (.ref 0) (.ref 0) [] []
      (Or.inl rfl) (by decide) (by decide)).1).mpr ⟨by decide, by decide⟩

/-- **C2 (amended)**: a registered matmul-variant call is always rewritten
to a module invocation, regardless of operand provenance (no guard is
applied); the replacement submodule is registered under the scoped
collision-resolved name derived from `scope ++ ".matmul"`, and that name
equals `scope ++ ".matmul"` itself whenever the scope path contains no
underscore and the sanitized candidate is not already used.  (With an
underscore in the scope — e.g. `self_attn` — the relocation surgery turns
it into a dot, so the registered name differs from `scope ++ ".matmul"`.) -/
theorem matmul_always_replaced (ctx : Ctx) (st : St) (key fn : String)
    (sc : String × String) (args : List Arg) (kw : List (String × Arg))
    (hkey : key = torchMatmulRepr ∨ key = torchBmmRepr
      ∨ key = "<built-in function matmul>")
    (hreg : key ∈ ctx.reg.funcKeys)
    (hsc : List.lookup (getNameForFuncNodes fn st.ns) ctx.nnts = some sc) :
    stepNode ctx st ⟨.callFunction, key, fn, args, kw⟩
      = .ok (finishFuncReplace ctx st key fn
          (createUniqueNameInScope st.ns (sc.1 ++ ".matmul")) true args kw)
    ∧ ('_' ∉ sc.1.toList → sanitize (sc.1 ++ ".matmul") ∉ st.ns.used →
        createUniqueNameInScope st.ns (sc.1 ++ ".matmul") = sc.1 ++ ".matmul") := by
  constructor
  · exact step_matmul_replace ctx st key fn sc args kw (classify_matmul key hkey) hreg hsc
  · intro hus hfresh
    unfold createUniqueNameInScope
    have hgn : getNameForFuncNodes (sc.1 ++ ".matmul") st.ns
        = sanitize (sc.1 ++ ".matmul") := by
      unfold getNameForFuncNodes resolveName
      simp only [hfresh, if_false]
    rw [hgn]
    apply relocateName_sanitize
    · rw [toList_append]
      intro hmem
      rcases List.mem_append.mp hmem with h1 | h1
      · exact hus h1
      · exact absurd h1 (by decide)
    · rw [toList_append]
      intro h0
      exact absurd (List.append_eq_nil.mp h0).2 (by decide)
    · intro c hc
      rw [toList_append, List.getLast?_append_of_ne_nil _ (by decide)] at hc
      have h0 : (".matmul".toList).getLast? = some 'l' := by decide
      rw [h0] at hc
      obtain rfl := (Option.some.inj hc).symm
      decide

/-- Witness for C2 (Scenario D): a matmul at the underscore-free scope
`block.attn` is registered under `block.attn.matmul`. -/
theorem matmul_always_replaced_witness :
    createUniqueNameInScope initialState.ns ("block.attn" ++ ".matmul")
      = "block.attn" ++ ".matmul" :=
  (matmul_always_replaced ctxMatmulD initialState "<built-in function matmul>"
    "matmul" ("block.attn", "function") [] []
    (Or.inr (Or.inr rfl)) (by decide) (by decide)).2 (by decide) (by decide)

/-- Counterexample to C2 as stated: with scope `block.self_attn` the
replacement submodule is registered under `block.self.attn.matmul`, not
under the scope path followed by `.matmul` — the underscore of the scope is
rewritten to a dot by the relocation surgery. -/
theorem matmul_name_counterexample :
    subNames (runTransform ctxMatmulU gMatmulU) = ["block.self.attn.matmul"]
    ∧ "block.self.attn.matmul" ≠ "block.self_attn" ++ ".matmul" := by
  constructor
  · rfl
  · decide

/-- **C4 (amended)**: the qualified names allocated through
`create_unique_name_in_scope` — the scoped elementwise-add/multiply and
matmul replacement paths — are pairwise distinct over one whole pass; the
generic function-replacement path and the `baddbmm` method path, which
build `scope.candidate` directly, can instead reuse a name when the same
target repeats in the same scope. -/
theorem scoped_names_nodup (ctx : Ctx) (g : List Node) (st : St)
    (h : runTransform ctx g = .ok st) : (scopedNames st).Nodup := by
  have hg0 : goodState initialState :=
    ⟨List.nodup_nil, fun nm hnm => absurd hnm (List.not_mem_nil _)⟩
  exact (runFrom_good ctx g initialState st h hg0).1

/-- Witness for C4 on the matmul run. -/
theorem scoped_names_nodup_witness : (scopedNames stMatmulU).Nodup :=
  scoped_names_nodup ctxMatmulU gMatmulU stMatmulU rfl

/-- Counterexample to C4 as stated: two replacements of the same generic
registered function in the same scope are both registered under
`block.gelu` — the allocated names of two replacement nodes coincide. -/
theorem name_reuse_counterexample :
    subNames (runTransform ctxGelu gGelu) = ["block.gelu", "block.gelu"]
    ∧ ¬ (["block.gelu", "block.gelu"] : List String).Nodup := by
  constructor
  · rfl
  · decide

/-- **C6 (amended)**: every replacement emits exactly one `call_module`
node; for method- and function-call replacements its positional arguments
are the (already rewritten) original arguments — with the keyword
arguments, for function calls, filtered of the constructor-consumed ones —
while a module-invocation replacement keeps only the first positional
argument and drops all keyword arguments. -/
theorem replacement_args_rewritten (ctx : Ctx) (st : St) (n : Node) (st' : St)
    (h : stepNode ctx st n = .ok st')
    (hrepl : st.subs.length < st'.subs.length) :
    ∃ m : ONode, st'.out = st.out ++ [m] ∧ m.op = .callModule ∧
      (n.op = .callFunction →
          m.args = processArgs n.args ∧
          m.kwargs = processKwargs (n.kwargs.filter (fun p =>
            !(((List.lookup n.target ctx.reg.funcInitParams).getD []).contains p.1))))
      ∧ (n.op = .callMethod →
          m.args = processArgs n.args ∧ m.kwargs = processKwargs n.kwargs)
      ∧ (n.op = .callModule → ∃ i rest, n.args = Arg.ref i :: rest ∧
          m.args = [Arg.ref i] ∧ m.kwargs = []) := by
  obtain ⟨op, tg, fn, args, kw⟩ := n
  cases op
  case placeholder =>
    simp only [stepNode] at h
    injection h with h
    subst h
    rw [emitPass_subs] at hrepl
    exact absurd hrepl (lt_irrefl _)
  case getAttr =>
    simp only [stepNode] at h
    injection h with h
    subst h
    rw [emitPass_subs] at hrepl
    exact absurd hrepl (lt_irrefl _)
  case output =>
    simp only [stepNode] at h
    injection h with h
    subst h
    rw [emitPass_subs] at hrepl
    exact absurd hrepl (lt_irrefl _)
  case callModule =>
    simp only [stepNode] at h
    split at h
    · exact Except.noConfusion h
    · next nodeKey _ =>
      split at h
      · split at h
        · injection h with h
          subst h
          exact ⟨_, rfl, rfl, fun hop => Op.noConfusion hop,
            fun hop => Op.noConfusion hop, fun _ => ⟨_, _, rfl, rfl, rfl⟩⟩
        · exact Except.noConfusion h
      · injection h with h
        subst h
        rw [emitPass_subs] at hrepl
        exact absurd hrepl (lt_irrefl _)
  case callMethod =>
    simp only [stepNode] at h
    split at h
    · split at h
      · exact Except.noConfusion h
      · injection h with h
        subst h
        exact ⟨_, rfl, rfl, fun hop => Op.noConfusion hop,
          fun _ => ⟨rfl, rfl⟩, fun hop => Op.noConfusion hop⟩
    · injection h with h
      subst h
      rw [emitPass_subs] at hrepl
      exact absurd hrepl (lt_irrefl _)
  case callFunction =>
    simp only [stepNode] at h
    split at h
    · split at h
      · exact Except.noConfusion h
      · split at h
        · split at h
          · split at h
            · injection h with h
              subst h
              exact ⟨_, rfl, rfl, fun _ => ⟨rfl, rfl⟩,
                fun hop => Op.noConfusion hop, fun hop => Op.noConfusion hop⟩
            · injection h with h
              subst h
              rw [emitPass_subs] at hrepl
              exact absurd hrepl (lt_irrefl _)
          · exact Except.noConfusion h
        · split at h
          · split at h
            · injection h with h
              subst h
              exact ⟨_, rfl, rfl, fun _ => ⟨rfl, rfl⟩,
                fun hop => Op.noConfusion hop, fun hop => Op.noConfusion hop⟩
            · injection h with h
              subst h
              rw [emitPass_subs] at hrepl
              exact absurd hrepl (lt_irrefl _)
          · exact Except.noConfusion h
        · injection h with h
          subst h
          exact ⟨_, rfl, rfl, fun _ => ⟨rfl, rfl⟩,
            fun hop => Op.noConfusion hop, fun hop => Op.noConfusion hop⟩
        · injection h with h
          subst h
          exact ⟨_, rfl, rfl, fun _ => ⟨rfl, rfl⟩,
            fun hop => Op.noConfusion hop, fun hop => Op.noConfusion hop⟩
    · injection h with h
      subst h
      rw [emitPass_subs] at hrepl
      exact absurd hrepl (lt_irrefl _)

/-- Witness for C6 on the matmul replacement step. -/
theorem replacement_args_rewritten_witness :
    ∃ m : ONode, stMatmulU.out = initialState.out ++ [m] ∧ m.op = .callModule :=
  match replacement_args_rewritten ctxMatmulU initialState
      ⟨.callFunction, "<built-in function matmul>", "matmul", [.lit 3, .lit 4], []⟩
      stMatmulU rfl (by decide) with
  | ⟨m, h1, h2, _⟩ => ⟨m, h1, h2⟩

/-- Counterexample to C6 as stated: a module-invocation replacement of a
two-argument call keeps only the first positional argument (and drops the
keyword argument) — lines 54-56 emit `args=(args[0].node,)`. -/
theorem module_args_counterexample :
    outArgs (runTransform ctxLin gLin) = [[], [], [Arg.ref 0]]
    ∧ (gLin.map (fun n => n.args)) = [[], [], [Arg.ref 0, Arg.ref 1]]
    ∧ ([Arg.ref 0] : List Arg) ≠ [Arg.ref 0, Arg.ref 1] := by
  refine ⟨rfl, rfl, ?_⟩
  decide

end DmxTransform
